import Mathlib

/-!
Shallow embedding of `fl/view.py` (sballin/signal_tools): the field-line
inversion viewer.  Images and matrices are embedded as lists of rationals
(idealizing IEEE floats by exact arithmetic), numpy 2-D arrays as lists of
rows.  The external NNLS solver (`scipy.optimize.nnls`) is embedded by its
input/output contract: a non-negative minimizer of the residual, of length
equal to the column count of the matrix argument.
-/

/-- `fl.flatten()`: row-major flattening of a 2-D image. -/
def flattenImage (img : List (List ℚ)) : List ℚ :=
  img.flatten

/-- Dot product of two vectors (`np.dot` on 1-D arrays); excess entries of
the longer vector are ignored, as shapes always agree in well-formed runs. -/
def dot (u v : List ℚ) : ℚ :=
  (List.zipWith (· * ·) u v).sum

/-- Matrix–vector product `A.dot(w)`, one dot product per row. -/
def mulVec (A : List (List ℚ)) (w : List ℚ) : List ℚ :=
  A.map (fun row => dot row w)

/-- `np.transpose` on a well-formed (rectangular) 2-D array: entry `(i, j)`
of the result is entry `(j, i)` of the argument; the row count of the result
is the common row length of the argument. -/
def transposeMat (A : List (List ℚ)) : List (List ℚ) :=
  (List.range (A.headD []).length).map (fun i => A.map (fun row => row.getD i 0))

/-- `geomatrix = np.transpose(np.array([fl.flatten() for fl in fl_images]))`
(view.py line 181): the geometry operator, shape `(pixels, N)`. -/
def geomatrix (fl_images : List (List (List ℚ))) : List (List ℚ) :=
  transposeMat (fl_images.map flattenImage)

/-- `smoothing_param * np.identity(n)` (view.py line 183). -/
def scaled_identity (smoothing_param : ℚ) (n : ℕ) : List (List ℚ) :=
  (List.range n).map (fun i =>
    (List.range n).map (fun j => smoothing_param * (if i = j then 1 else 0)))

/-- `geomatrix_smooth = np.concatenate((geomatrix, smoothing_param*np.identity(len(fl_images))))`
(view.py lines 182-183): the augmented geometry operator. -/
def geomatrix_smooth (smoothing_param : ℚ) (fl_images : List (List (List ℚ))) :
    List (List ℚ) :=
  geomatrix fl_images ++ scaled_identity smoothing_param fl_images.length

/-- `target_smooth = np.concatenate((target.flatten(), np.zeros(len(fl_images))))`
(view.py lines 185, 243): the augmented observed frame. -/
def target_smooth (target : List (List ℚ)) (n : ℕ) : List ℚ :=
  flattenImage target ++ List.replicate n 0

/-- Squared residual `‖A·w − b‖²` of a candidate weight vector. -/
def residualSq (A : List (List ℚ)) (b w : List ℚ) : ℚ :=
  (List.zipWith (fun p q => (p - q) * (p - q)) (mulVec A w) b).sum

/-- Contract of the external solver `scipy.optimize.nnls(A, b)` (view.py
line 180): the result has length `A.shape[1]` (passed here explicitly as
`ncols`, since numpy arrays carry their shape as metadata), is element-wise
non-negative, and minimizes `‖A·w − b‖²` among all non-negative vectors of
that length. -/
def IsNNLSSol (ncols : ℕ) (A : List (List ℚ)) (b w : List ℚ) : Prop :=
  w.length = ncols ∧ (∀ x ∈ w, 0 ≤ x) ∧
    ∀ v : List ℚ, v.length = ncols → (∀ x ∈ v, 0 ≤ x) →
      residualSq A b w ≤ residualSq A b v

theorem length_mulVec (A : List (List ℚ)) (w : List ℚ) :
    (mulVec A w).length = A.length := by
  simp [mulVec]

theorem length_geomatrix (fl_images : List (List (List ℚ))) :
    (geomatrix fl_images).length = ((fl_images.map flattenImage).headD []).length := by
  simp [geomatrix, transposeMat]

theorem row_length_geomatrix (fl_images : List (List (List ℚ))) :
    ∀ row ∈ geomatrix fl_images, row.length = fl_images.length := by
  intro row hrow
  simp only [geomatrix, transposeMat, List.mem_map] at hrow
  obtain ⟨i, -, rfl⟩ := hrow
  simp

theorem row_length_scaled_identity (lam : ℚ) (n : ℕ) :
    ∀ row ∈ scaled_identity lam n, row.length = n := by
  intro row hrow
  simp only [scaled_identity, List.mem_map] at hrow
  obtain ⟨i, -, rfl⟩ := hrow
  simp

theorem residualSq_nonneg (A : List (List ℚ)) (b w : List ℚ) :
    0 ≤ residualSq A b w := by
  unfold residualSq
  generalize mulVec A w = u
  induction u generalizing b with
  | nil => simp
  | cons x xs ih =>
    cases b with
    | nil => simp
    | cons y ys =>
      simpa using add_nonneg (mul_self_nonneg (x - y)) (ih ys)

theorem dot_eq_zero_of_left_zero (u v : List ℚ) (h : ∀ x ∈ u, x = 0) :
    dot u v = 0 := by
  induction u generalizing v with
  | nil => simp [dot]
  | cons x xs ih =>
    cases v with
    | nil => simp [dot]
    | cons y ys =>
      have hx : x = 0 := h x (by simp)
      have hxs : dot xs ys = 0 := ih ys (fun z hz => h z (by simp [hz]))
      simp only [dot, List.zipWith_cons_cons, List.sum_cons] at *
      rw [hx, hxs, zero_mul, add_zero]

theorem scaled_identity_zero_entries (n : ℕ) :
    ∀ row ∈ scaled_identity 0 n, ∀ x ∈ row, x = 0 := by
  intro row hrow x hx
  simp only [scaled_identity, List.mem_map] at hrow
  obtain ⟨i, -, rfl⟩ := hrow
  simp only [List.mem_map] at hx
  obtain ⟨j, -, rfl⟩ := hx
  rw [zero_mul]

theorem residualSq_zero_rows (rows : List (List ℚ)) (w : List ℚ)
    (h : ∀ r ∈ rows, ∀ x ∈ r, x = 0) :
    ∀ m : ℕ, residualSq rows (List.replicate m 0) w = 0 := by
  induction rows with
  | nil => intro m; simp [residualSq, mulVec]
  | cons r rs ih =>
    intro m
    cases m with
    | zero => simp [residualSq, mulVec]
    | succ k =>
      have hr : dot r w = 0 :=
        dot_eq_zero_of_left_zero r w (h r (by simp))
      have hrs := ih (fun s hs => h s (by simp [hs])) k
      simp only [residualSq, mulVec, List.map_cons, List.replicate_succ,
        List.zipWith_cons_cons, List.sum_cons] at *
      rw [hr, hrs, sub_zero, mul_zero, zero_add]

theorem residualSq_append (A A' : List (List ℚ)) (b b' w : List ℚ)
    (h : A.length = b.length) :
    residualSq (A ++ A') (b ++ b') w =
      residualSq A b w + residualSq A' b' w := by
  unfold residualSq mulVec
  rw [List.map_append, List.zipWith_append _ _ _ _ _ (by simp [h]),
    List.sum_append]

theorem residualSq_smooth_zero (fl_images : List (List (List ℚ)))
    (frame : List (List ℚ)) (w : List ℚ)
    (h : (geomatrix fl_images).length = (flattenImage frame).length) :
    residualSq (geomatrix_smooth 0 fl_images)
        (target_smooth frame fl_images.length) w =
      residualSq (geomatrix fl_images) (flattenImage frame) w := by
  unfold geomatrix_smooth target_smooth
  rw [residualSq_append _ _ _ _ _ h,
    residualSq_zero_rows _ w (scaled_identity_zero_entries fl_images.length) _,
    add_zero]

/-- C1: the NNLS inversion of an observed frame against a geometry operator of
shape `(pixels, N)` with smoothing parameter `λ` solves the augmented system
obtained by stacking the `N×N` matrix `λ·I_N` below `G` (every augmented row
still has `N` columns, and row `i` of the stacked block is `λ` times the
`i`-th standard basis row) and stacking `N` zeros below the flattened frame;
any solution the solver returns for that augmented system has length `N`. -/
theorem nnls_augmented_system (fl_images : List (List (List ℚ))) (lam : ℚ)
    (frame : List (List ℚ)) (w : List ℚ) :
    geomatrix_smooth lam fl_images =
      geomatrix fl_images ++ scaled_identity lam fl_images.length ∧
    (scaled_identity lam fl_images.length).length = fl_images.length ∧
    (∀ row ∈ geomatrix_smooth lam fl_images, row.length = fl_images.length) ∧
    (∀ i, i < fl_images.length →
      (scaled_identity lam fl_images.length).getD i [] =
        (List.range fl_images.length).map
          (fun j => lam * (if i = j then 1 else 0))) ∧
    target_smooth frame fl_images.length =
      flattenImage frame ++ List.replicate fl_images.length 0 ∧
    (IsNNLSSol fl_images.length (geomatrix_smooth lam fl_images)
        (target_smooth frame fl_images.length) w →
      w.length = fl_images.length) := by
  refine ⟨rfl, by simp [scaled_identity], ?_, ?_, rfl, fun h => h.1⟩
  · intro row hrow
    rcases List.mem_append.1 hrow with hl | hr
    · exact row_length_geomatrix fl_images row hl
    · exact row_length_scaled_identity lam fl_images.length row hr
  · intro i hi
    simp only [scaled_identity]
    rw [List.getD_eq_getElem?_getD, List.getElem?_map, List.getElem?_range hi]
    rfl

/-- Witness for C1 at a concrete one-element basis library. -/
theorem nnls_augmented_system_witness :
    IsNNLSSol 1 (geomatrix_smooth 0 [[[1]]]) (target_smooth [[2]] 1) [2] ∧
      ([2] : List ℚ).length = 1 := by
  have hsol : IsNNLSSol 1 (geomatrix_smooth 0 [[[1]]]) (target_smooth [[2]] 1)
      [2] := by
    refine ⟨by decide, by decide, fun v hv hv' => ?_⟩
    have h0 : residualSq (geomatrix_smooth 0 [[[1]]]) (target_smooth [[2]] 1)
        [2] = 0 := by
      norm_num [residualSq, mulVec, dot, geomatrix_smooth, geomatrix,
        transposeMat, scaled_identity, target_smooth, flattenImage,
        List.range_succ]
    rw [h0]
    exact residualSq_nonneg _ _ _
  exact ⟨hsol, (nnls_augmented_system [[[1]]] 0 [[2]] [2]).2.2.2.2.2 hsol⟩

/-- C2: with `λ = 0` the augmented non-negative least-squares problem has the
same solutions as the plain, unaugmented NNLS problem
`minimize ‖G·w − f‖², w ≥ 0`, whenever the pixel counts of the operator and
the frame agree. -/
theorem lambda_zero_recovers_plain_nnls (fl_images : List (List (List ℚ)))
    (frame : List (List ℚ)) (w : List ℚ)
    (h : (geomatrix fl_images).length = (flattenImage frame).length) :
    IsNNLSSol fl_images.length (geomatrix_smooth 0 fl_images)
        (target_smooth frame fl_images.length) w ↔
      IsNNLSSol fl_images.length (geomatrix fl_images) (flattenImage frame)
        w := by
  have key : ∀ u : List ℚ,
      residualSq (geomatrix_smooth 0 fl_images)
          (target_smooth frame fl_images.length) u =
        residualSq (geomatrix fl_images) (flattenImage frame) u :=
    fun u => residualSq_smooth_zero fl_images frame u h
  simp only [IsNNLSSol, key]

/-- Witness for C2 at a concrete well-posed one-element system. -/
theorem lambda_zero_recovers_plain_nnls_witness :
    (geomatrix [[[1]]]).length = (flattenImage [[2]]).length ∧
      (IsNNLSSol 1 (geomatrix_smooth 0 [[[1]]]) (target_smooth [[2]] 1) [2] ↔
        IsNNLSSol 1 (geomatrix [[[1]]]) (flattenImage [[2]]) [2]) :=
  ⟨by decide, lambda_zero_recovers_plain_nnls [[[1]]] [[2]] [2] (by decide)⟩

/-- The stable ascending comparison used to model `np.argsort(xcorrs)`
(view.py lines 61, 120): index `i` precedes index `j` when its score is
strictly smaller, or the scores are equal and `i ≤ j` (stable tie order). -/
def ascRel (s : List ℚ) (i j : ℕ) : Prop :=
  s.getD i 0 < s.getD j 0 ∨ (s.getD i 0 = s.getD j 0 ∧ i ≤ j)

instance ascRelDecidable (s : List ℚ) : DecidableRel (ascRel s) := fun i j =>
  inferInstanceAs
    (Decidable (s.getD i 0 < s.getD j 0 ∨ (s.getD i 0 = s.getD j 0 ∧ i ≤ j)))

instance ascRelTotal (s : List ℚ) : IsTotal ℕ (ascRel s) := by
  constructor
  intro i j
  rcases lt_trichotomy (s.getD i 0) (s.getD j 0) with h | h | h
  · exact Or.inl (Or.inl h)
  · rcases Nat.le_total i j with hij | hij
    · exact Or.inl (Or.inr ⟨h, hij⟩)
    · exact Or.inr (Or.inr ⟨h.symm, hij⟩)
  · exact Or.inr (Or.inl h)

instance ascRelTrans (s : List ℚ) : IsTrans ℕ (ascRel s) := by
  constructor
  intro a b c hab hbc
  rcases hab with h1 | ⟨h1, h1'⟩
  · rcases hbc with h2 | ⟨h2, -⟩
    · exact Or.inl (h1.trans h2)
    · exact Or.inl (h2 ▸ h1)
  · rcases hbc with h2 | ⟨h2, h2'⟩
    · exact Or.inl (h1 ▸ h2)
    · exact Or.inr ⟨h1.trans h2, h1'.trans h2'⟩

/-- `np.argsort(xcorrs)` (view.py lines 61, 120): the ascending, stable
argsort of a score vector, as the unique permutation of `range n` sorted by
`ascRel` (strictly smaller score first, ties by ascending index). -/
def argsort (s : List ℚ) : List ℕ :=
  List.insertionSort (ascRel s) (List.range s.length)

/-- `indices = np.argsort(xcorrs)[::-1]` (view.py line 120): the ranking used
after a camera-frame change, best match first. -/
def ranking (s : List ℚ) : List ℕ :=
  (argsort s).reverse

theorem argsort_sorted (s : List ℚ) : (argsort s).Sorted (ascRel s) :=
  List.sorted_insertionSort (ascRel s) (List.range s.length)

theorem argsort_perm (s : List ℚ) : (argsort s).Perm (List.range s.length) :=
  List.perm_insertionSort (ascRel s) (List.range s.length)

theorem ranking_perm (s : List ℚ) : (ranking s).Perm (List.range s.length) :=
  (List.reverse_perm (argsort s)).trans (argsort_perm s)

theorem ranking_sorted (s : List ℚ) :
    (ranking s).Sorted (fun a b => ascRel s b a) :=
  List.pairwise_reverse.2 (argsort_sorted s)

/-- The ranking order the claim describes: descending score, ties between
equal scores broken by ascending basis index. -/
def claimRankingRel (s : List ℚ) (a b : ℕ) : Prop :=
  s.getD b 0 < s.getD a 0 ∨ (s.getD a 0 = s.getD b 0 ∧ a ≤ b)

instance claimRankingRelDecidable (s : List ℚ) :
    DecidableRel (claimRankingRel s) := fun a b =>
  inferInstanceAs
    (Decidable (s.getD b 0 < s.getD a 0 ∨ (s.getD a 0 = s.getD b 0 ∧ a ≤ b)))

/-- C3 (amended): the ranking computed by `np.argsort(xcorrs)[::-1]` is a
permutation of all basis indices sorted by descending correlation score, so
rank `k` selects the `k`-th best match and rank 0 a highest-scoring element;
however ties between equal scores are broken by DESCENDING basis index (the
reversal flips the stable ascending tie order of `argsort`). -/
theorem ranking_descending_ties_descending (s : List ℚ) :
    (ranking s).Perm (List.range s.length) ∧
    (ranking s).Sorted (fun a b =>
      s.getD b 0 < s.getD a 0 ∨ (s.getD a 0 = s.getD b 0 ∧ b ≤ a)) := by
  refine ⟨ranking_perm s, ?_⟩
  have h := ranking_sorted s
  exact h.imp (fun hab => hab.imp id (fun hp => ⟨hp.1.symm, hp.2⟩))

/-- C3 counterexample: on the score vector `[5, 5]` the code's ranking is
`[1, 0]`, which is not ordered with ties broken by ascending basis index. -/
theorem ranking_tie_ascending_counterexample :
    ranking [5, 5] = [1, 0] ∧
      ¬ (ranking [5, 5]).Pairwise (claimRankingRel [5, 5]) := by
  constructor
  · decide
  · decide

/-- `forward` (view.py lines 138-141, 262-265, 410-412): every forward
handler sets `frame_index += 1` (directly or through `set_val`) with no
clamping against the frame count. -/
def forward_step (frame_index : ℤ) : ℤ :=
  frame_index + 1

/-- `backward` (view.py lines 143-146, 267-270, 414-416): `frame_index -= 1`,
with no clamping at zero. -/
def backward_step (frame_index : ℤ) : ℤ :=
  frame_index - 1

/-- The behaviour the claim describes:
`clamp(frame_index + delta, 0, num_frames - 1)`. -/
def advance_spec (num_frames frame_index delta : ℤ) : ℤ :=
  max 0 (min (frame_index + delta) (num_frames - 1))

/-- A sequence of navigation events (`true` = forward, `false` = backward)
applied to a frame index. -/
def applyNav (fi : ℤ) : List Bool → ℤ
  | [] => fi
  | b :: evs => applyNav (if b then forward_step fi else backward_step fi) evs

/-- C5 (amended): the forward/backward handlers perform unclamped increments
and decrements, so after any sequence of navigation events the frame index is
the initial index plus the number of forward events minus the number of
backward events — it is not confined to `[0, num_frames)`. -/
theorem navigation_unclamped (fi : ℤ) (evs : List Bool) :
    applyNav fi evs = fi + (evs.count true : ℤ) - (evs.count false : ℤ) := by
  induction evs generalizing fi with
  | nil => simp [applyNav]
  | cons b evs ih =>
    cases b <;>
      simp [applyNav, forward_step, backward_step, ih, List.count_cons] <;>
      omega

/-- C5 counterexample: in a session with `num_frames = 1` at `frame_index = 0`
the forward handler yields 1, while `clamp(0 + 1, 0, 0) = 0`; the resulting
index 1 is outside `[0, 1)`. -/
theorem navigation_clamp_counterexample :
    forward_step 0 = 1 ∧ advance_spec 1 0 1 = 0 ∧
      forward_step 0 ≠ advance_spec 1 0 1 ∧ ¬ forward_step 0 < 1 := by
  refine ⟨rfl, by decide, by decide, by decide⟩

/-- First index of a minimal element of a list (index 0 on the empty list). -/
def firstArgmin : List ℚ → ℕ
  | [] => 0
  | [_] => 0
  | x :: y :: rest =>
    if x ≤ (y :: rest).getD (firstArgmin (y :: rest)) 0 then 0
    else firstArgmin (y :: rest) + 1

/-- Modelled from the spec: `process.find_nearest` comes from the external
`phantom_viewer.process` module, which is not under src/; the spec states it
returns the index minimizing `|times[i] - t|` with ties broken toward the
lower index, i.e. the first argmin of the element-wise absolute
differences. -/
def find_nearest (ts : List ℚ) (t : ℚ) : ℕ :=
  firstArgmin (ts.map (fun x => |x - t|))

theorem firstArgmin_lt_length (l : List ℚ) (h : l ≠ []) :
    firstArgmin l < l.length := by
  induction l with
  | nil => exact absurd rfl h
  | cons x l ih =>
    cases l with
    | nil => simp [firstArgmin]
    | cons y rest =>
      simp only [firstArgmin]
      split
      · simp
      · have h2 := ih (by simp)
        simp only [List.length_cons] at h2 ⊢
        omega

theorem firstArgmin_min (l : List ℚ) : ∀ i, i < l.length →
    l.getD (firstArgmin l) 0 ≤ l.getD i 0 := by
  induction l with
  | nil => intro i h; simp at h
  | cons x l ih =>
    cases l with
    | nil =>
      intro i h
      have hi : i = 0 := by simpa using h
      subst hi
      simp [firstArgmin]
    | cons y rest =>
      intro i hi
      by_cases hx : x ≤ (y :: rest).getD (firstArgmin (y :: rest)) 0
      · have hfa : firstArgmin (x :: y :: rest) = 0 := by
          simp only [firstArgmin, if_pos hx]
        rw [hfa]
        cases i with
        | zero => simp
        | succ j =>
          have hj : j < (y :: rest).length := by simpa using hi
          simpa using hx.trans (ih j hj)
      · have hfa : firstArgmin (x :: y :: rest) =
            firstArgmin (y :: rest) + 1 := by
          simp only [firstArgmin, if_neg hx]
        rw [hfa]
        cases i with
        | zero => simpa using (lt_of_not_le hx).le
        | succ j =>
          have hj : j < (y :: rest).length := by simpa using hi
          simpa using ih j hj

theorem firstArgmin_first (l : List ℚ) : ∀ i, i < firstArgmin l →
    l.getD (firstArgmin l) 0 < l.getD i 0 := by
  induction l with
  | nil => intro i h; simp [firstArgmin] at h
  | cons x l ih =>
    cases l with
    | nil => intro i h; simp [firstArgmin] at h
    | cons y rest =>
      intro i hi
      by_cases hx : x ≤ (y :: rest).getD (firstArgmin (y :: rest)) 0
      · rw [show firstArgmin (x :: y :: rest) = 0 by
          simp only [firstArgmin, if_pos hx]] at hi
        exact absurd hi (Nat.not_lt_zero i)
      · have hfa : firstArgmin (x :: y :: rest) =
            firstArgmin (y :: rest) + 1 := by
          simp only [firstArgmin, if_neg hx]
        rw [hfa] at hi ⊢
        cases i with
        | zero => simpa using lt_of_not_le hx
        | succ j =>
          have hj : j < firstArgmin (y :: rest) := by omega
          simpa using ih j hj

theorem getD_map_abs (ts : List ℚ) (t : ℚ) (i : ℕ) (h : i < ts.length) :
    (ts.map (fun x => |x - t|)).getD i 0 = |ts.getD i 0 - t| := by
  rw [List.getD_eq_getElem?_getD, List.getElem?_map,
    List.getElem?_eq_getElem h, List.getD_eq_getElem?_getD,
    List.getElem?_eq_getElem h]
  rfl

/-- C6: for a strictly increasing `times` array, `find_nearest` returns a
valid index minimizing `|times[i] - t|`, every strictly smaller index has a
strictly larger distance (so ties are broken toward the lower index); in
particular on `times = [0, 10, 20, 30]` both `t = 14` and the tie `t = 15`
return index 1.  (Reason: spec-modelled, `process.find_nearest` is not under
src/.) -/
theorem find_nearest_minimizes :
    (∀ (ts : List ℚ) (t : ℚ), ts.Sorted (· < ·) →
      (ts ≠ [] → find_nearest ts t < ts.length) ∧
      (∀ i, i < ts.length →
        |ts.getD (find_nearest ts t) 0 - t| ≤ |ts.getD i 0 - t|) ∧
      (∀ i, i < find_nearest ts t →
        |ts.getD (find_nearest ts t) 0 - t| < |ts.getD i 0 - t|)) ∧
    find_nearest [0, 10, 20, 30] 14 = 1 ∧
    find_nearest [0, 10, 20, 30] 15 = 1 := by
  refine ⟨?_, ?_, ?_⟩
  · intro ts t _
    refine ⟨?_, ?_, ?_⟩
    · intro hne
      have h := firstArgmin_lt_length (ts.map (fun x => |x - t|))
        (by simpa using hne)
      simpa [find_nearest] using h
    · intro i hi
      have hne : ts ≠ [] := by
        intro hts
        subst hts
        simp at hi
      have hfn : find_nearest ts t < ts.length := by
        have h := firstArgmin_lt_length (ts.map (fun x => |x - t|))
          (by simpa using hne)
        simpa [find_nearest] using h
      have h1 := firstArgmin_min (ts.map (fun x => |x - t|)) i (by simpa using hi)
      rw [show firstArgmin (ts.map (fun x => |x - t|)) = find_nearest ts t
        from rfl] at h1
      rw [getD_map_abs ts t _ hfn, getD_map_abs ts t i hi] at h1
      exact h1
    · intro i hi
      rcases eq_or_ne ts [] with rfl | hne
      · simp [find_nearest, firstArgmin] at hi
      · have hfn : find_nearest ts t < ts.length := by
          have h := firstArgmin_lt_length (ts.map (fun x => |x - t|))
            (by simpa using hne)
          simpa [find_nearest] using h
        have hilen : i < ts.length := lt_trans hi hfn
        have h1 := firstArgmin_first (ts.map (fun x => |x - t|)) i hi
        rw [show firstArgmin (ts.map (fun x => |x - t|)) = find_nearest ts t
          from rfl] at h1
        rw [getD_map_abs ts t _ hfn, getD_map_abs ts t i hilen] at h1
        exact h1
  · norm_num [find_nearest, firstArgmin]
  · norm_num [find_nearest, firstArgmin]

/-- Witness for C6 on the concrete strictly increasing array of the claim. -/
theorem find_nearest_minimizes_witness :
    ([0, 10, 20, 30] : List ℚ).Sorted (· < ·) ∧
      |([0, 10, 20, 30] : List ℚ).getD (find_nearest [0, 10, 20, 30] 14) 0 - 14| ≤
        |([0, 10, 20, 30] : List ℚ).getD 0 0 - 14| :=
  ⟨by decide, (find_nearest_minimizes.1 [0, 10, 20, 30] 14 (by decide)).2.1 0
    (by decide)⟩

/-- `reconstructed.reshape((64, 64))` (view.py lines 195, 246, 314, 394):
numpy reshape to `(64, 64)` succeeds exactly when the vector has `64 * 64`
entries, yielding 64 rows of 64; otherwise it raises ValueError (modelled as
`none`). -/
def reshape64 (v : List ℚ) : Option (List (List ℚ)) :=
  if v.length = 64 * 64 then
    some ((List.range 64).map (fun i => (v.drop (64 * i)).take 64))
  else none

/-- Element-wise matrix subtraction (`frames[frame_index] - reconstructed`). -/
def matSub (a b : List (List ℚ)) : List (List ℚ) :=
  List.zipWith (fun r s => List.zipWith (· - ·) r s) a b

/-- Display state of the NNLS viewer `slide_reconstruct`: the four matplotlib
image artists written by `update_data`, plus the shared `frame_index`
counter (which is session state, not display state). -/
structure NNLSView where
  frame_index : ℕ
  plasma : List (List ℚ)
  reconstruction : List (List ℚ)
  emissivity : List (List ℚ)
  error_disp : List (List ℚ)

/-- `update_data` of `slide_reconstruct` (view.py lines 240-260): write the
shared `frame_index`, build the augmented target for the new frame, run the
solver on the cached augmented operator `Gs`, then recompute and write the
display arrays.  The solver and the scatter interpolation
(`matplotlib.mlab.griddata`) are external collaborators passed as functions;
a `none` from the solver (scipy raises on non-convergence) or from the
reshape (ValueError) aborts the update — the exception propagates with the
display arrays untouched, modelled by returning `false` together with the
state as mutated so far. -/
def nnls_update_data (solve : List (List ℚ) → List ℚ → Option (List ℚ))
    (interp : List ℚ → List (List ℚ)) (frames : List (List (List ℚ)))
    (G Gs : List (List ℚ)) (n : ℕ) (val : ℕ) (st : NNLSView) :
    NNLSView × Bool :=
  let fi := val
  let st1 := { st with frame_index := fi }
  match solve Gs (target_smooth (frames.getD fi []) n) with
  | none => (st1, false)
  | some w =>
    match reshape64 (mulVec G w) with
    | none => (st1, false)
    | some recon =>
      ({ st1 with
          plasma := frames.getD fi []
          reconstruction := recon
          emissivity := interp w
          error_disp := matSub (frames.getD fi []) recon }, true)

/-- C7: if the solver fails on a frame update, `update_data` consults it once
(no retry), surfaces the failure, and aborts before any display array is
written: the plasma, reconstruction, emissivity and error images all retain
their previous values, so the previously displayed state stays intact (only
the non-display `frame_index` counter was already set). -/
theorem solver_failure_leaves_display_intact
    (solve : List (List ℚ) → List ℚ → Option (List ℚ))
    (interp : List ℚ → List (List ℚ)) (frames : List (List (List ℚ)))
    (G Gs : List (List ℚ)) (n val : ℕ) (st : NNLSView)
    (h : solve Gs (target_smooth (frames.getD val []) n) = none) :
    nnls_update_data solve interp frames G Gs n val st =
        ({ st with frame_index := val }, false) ∧
    (nnls_update_data solve interp frames G Gs n val st).1.plasma =
        st.plasma ∧
    (nnls_update_data solve interp frames G Gs n val st).1.reconstruction =
        st.reconstruction ∧
    (nnls_update_data solve interp frames G Gs n val st).1.emissivity =
        st.emissivity ∧
    (nnls_update_data solve interp frames G Gs n val st).1.error_disp =
        st.error_disp := by
  have h' : solve Gs (target_smooth (frames[val]?.getD []) n) = none := by
    simpa using h
  refine ⟨?_, ?_, ?_, ?_, ?_⟩ <;> simp [nnls_update_data, h']

/-- Witness for C7 with a concretely failing solver. -/
theorem solver_failure_leaves_display_intact_witness :
    (fun (_ : List (List ℚ)) (_ : List ℚ) => (none : Option (List ℚ)))
        [] (target_smooth (([] : List (List (List ℚ))).getD 3 []) 0) = none ∧
      (nnls_update_data (fun _ _ => none) (fun _ => []) [] [] [] 0 3
          ⟨0, [[1]], [[2]], [[3]], [[4]]⟩).1.reconstruction = [[2]] :=
  ⟨rfl, (solver_failure_leaves_display_intact (fun _ _ => none) (fun _ => [])
    [] [] [] 0 3 ⟨0, [[1]], [[2]], [[3]], [[4]]⟩ rfl).2.2.1⟩

/-- C9: the reconstruction `G·w` is reshaped to exactly `(64, 64)`, which is
possible precisely when the flattened pixel count (the number of rows of `G`)
is `64 * 64 = 4096`; when it succeeds the result is a 64×64 array, and for an
operator of any other pixel count the reshape is undefined, so the per-frame
`update_data` cannot complete (it aborts whatever weight vector the solver
returns). -/
theorem reconstruction_reshape_64 (G : List (List ℚ)) (w : List ℚ) :
    ((reshape64 (mulVec G w)).isSome ↔ G.length = 64 * 64) ∧
    (∀ r, reshape64 (mulVec G w) = some r →
      r.length = 64 ∧ ∀ row ∈ r, row.length = 64) ∧
    (G.length ≠ 64 * 64 →
      ∀ (solve : List (List ℚ) → List ℚ → Option (List ℚ))
        (interp : List ℚ → List (List ℚ)) (frames : List (List (List ℚ)))
        (Gs : List (List ℚ)) (n val : ℕ) (st : NNLSView),
        solve Gs (target_smooth (frames.getD val []) n) = some w →
        (nnls_update_data solve interp frames G Gs n val st).2 = false) := by
  refine ⟨?_, ?_, ?_⟩
  · rw [reshape64, length_mulVec]
    split
    · simpa
    · simpa
  · intro r hr
    rw [reshape64, length_mulVec] at hr
    split at hr
    · rename_i hlen
      rw [Option.some_inj] at hr
      subst hr
      constructor
      · simp
      · intro row hrow
        simp only [List.mem_map, List.mem_range] at hrow
        obtain ⟨i, hi, rfl⟩ := hrow
        rw [List.length_take, List.length_drop, length_mulVec, hlen]
        omega
    · exact absurd hr (Option.noConfusion)
  · intro hG solve interp frames Gs n val st hsolve
    have h' : solve Gs (target_smooth (frames[val]?.getD []) n) = some w := by
      simpa using hsolve
    have hnone : reshape64 (mulVec G w) = none := by
      rw [reshape64, length_mulVec]
      exact if_neg hG
    simp [nnls_update_data, h', hnone]

/-- Witness for C9: a one-pixel operator cannot complete a frame update. -/
theorem reconstruction_reshape_64_witness :
    ([[1]] : List (List ℚ)).length ≠ 64 * 64 ∧
      (fun (_ : List (List ℚ)) (_ : List ℚ) => some ([1] : List ℚ)) []
          (target_smooth (([] : List (List (List ℚ))).getD 0 []) 1) =
        some [1] ∧
      (nnls_update_data (fun _ _ => some [1]) (fun _ => []) [] [[1]] [] 1 0
          ⟨0, [], [], [], []⟩).2 = false :=
  ⟨by decide, rfl, (reconstruction_reshape_64 [[1]] [1]).2.2 (by decide)
    (fun _ _ => some [1]) (fun _ => []) [] [] 1 0 ⟨0, [], [], [], []⟩ rfl⟩

theorem argsort_last_max (s : List ℚ) :
    ∀ j, j < s.length →
      s.getD j 0 ≤ s.getD ((argsort s).getD ((argsort s).length - 1) 0) 0 := by
  intro j hj
  have hlen : (argsort s).length = s.length :=
    (argsort_perm s).length_eq.trans (by simp)
  have hmem : j ∈ argsort s := by
    rw [(argsort_perm s).mem_iff]
    exact List.mem_range.2 hj
  obtain ⟨⟨k, hk⟩, hkj⟩ := List.mem_iff_get.1 hmem
  have hbound : (argsort s).length - 1 < (argsort s).length := by omega
  have hlast : (argsort s).getD ((argsort s).length - 1) 0 =
      (argsort s).get ⟨(argsort s).length - 1, hbound⟩ := by
    rw [List.getD_eq_getElem?_getD, List.getElem?_eq_getElem hbound]
    rfl
  rcases eq_or_lt_of_le (Nat.le_pred_of_lt hk) with hEq | hLt
  · subst hEq
    rw [hlast, ← hkj]
    exact le_refl _
  · have hpw := (List.pairwise_iff_get.1 (argsort_sorted s))
      ⟨k, hk⟩ ⟨(argsort s).length - 1, hbound⟩ hLt
    rw [hkj] at hpw
    rw [hlast]
    rcases hpw with h | ⟨h, -⟩
    · exact le_of_lt h
    · exact le_of_eq h

/-- Correlation scores of every field-line image against the frame at index
`fi` (view.py lines 58-60 and 116-117); `signals.cross_correlation` is an
external collaborator passed as the function `cc`. -/
def xcorrs_of (cc : List (List ℚ) → List (List ℚ) → ℚ)
    (frames fls : List (List (List ℚ))) (fi : ℕ) : List ℚ :=
  fls.map (fun fl => cc (frames.getD fi []) fl)

/-- State of the correlation viewer `slide_reconstruct_corr`, split across
Python's two namespaces.  `overlay` is the content of the `fl_image` artist
(the index of the field line currently overlaid), drawn at construction time
from the FUNCTION-LOCAL `indices`.  `g_frame_index` and `g_indices` are the
MODULE-LEVEL globals targeted by the callbacks' `global frame_index, indices,
xcorr_grid` declarations (view.py lines 114, 124): they are unbound (`none`)
until `update_data` first assigns them, because the function-locals of the
same names (lines 48, 61) live in a different namespace. -/
structure CorrScope where
  overlay : ℕ
  g_frame_index : Option ℕ
  g_indices : Option (List ℕ)

/-- Construction of `slide_reconstruct_corr` (view.py lines 46-111): the
function-local `xcorrs` are computed for frame 0 and the function-local
`indices = np.argsort(xcorrs)` (line 61) is ascending, NOT reversed; the
initial overlay is drawn from `fls[indices[-1]]` (line 79).  No module-level
global has been assigned yet. -/
def corr_init (cc : List (List ℚ) → List (List ℚ) → ℚ)
    (frames fls : List (List (List ℚ))) : CorrScope :=
  let idx := argsort (xcorrs_of cc frames fls 0)
  ⟨idx.getD (idx.length - 1) 0, none, none⟩

/-- `update_images` (view.py lines 123-136): under
`global frame_index, indices, xcorr_grid` it reads `time[frame_index]`
(line 126) — a NameError (`none`) when that module global is unbound — then
`fls[indices[val]]` (line 129), and redraws the overlay from the GLOBAL
`indices` at the rank-slider value `val`.  (The camera image also redrawn at
line 127 is not tracked in `CorrScope`.) -/
def corr_update_images (val : ℕ) (st : CorrScope) : Option CorrScope :=
  match st.g_frame_index with
  | none => none
  | some _ =>
    match st.g_indices with
    | none => none
    | some idx => some { st with overlay := idx.getD val 0 }

/-- `update_data` (view.py lines 113-121): assigns the module globals
`frame_index = int(val)` and, after recomputing the scores,
`indices = np.argsort(xcorrs)[::-1]` (descending), then calls
`update_images(0)` — which now finds both globals bound. -/
def corr_update_data (cc : List (List ℚ) → List (List ℚ) → ℚ)
    (frames fls : List (List (List ℚ))) (val : ℕ) (st : CorrScope) :
    Option CorrScope :=
  corr_update_images 0
    { st with
        g_frame_index := some val
        g_indices := some (ranking (xcorrs_of cc frames fls val)) }

/-- C10 (amended): before the first camera-frame change the function-local
ranking array is the ascending argsort of the correlation scores and the
initially drawn overlay is its position `N-1` — a maximal-score element;
after any camera-frame change the module-global ranking array is the
descending argsort, the freshly drawn overlay is its position 0, and rank
value `v` then displays its position `v`, the `(v+1)`-th best match.
However, a rank-slider value issued BEFORE any camera-frame change does not
select the `(v+1)`-th worst match: `update_images` reads the module-level
globals `frame_index`/`indices`, which are unbound until the first
`update_data` call, so it raises NameError and the overlay never changes. -/
theorem corr_rank_slider_semantics (cc : List (List ℚ) → List (List ℚ) → ℚ)
    (frames fls : List (List (List ℚ))) :
    (corr_init cc frames fls).overlay =
      (argsort (xcorrs_of cc frames fls 0)).getD
        ((argsort (xcorrs_of cc frames fls 0)).length - 1) 0 ∧
    (argsort (xcorrs_of cc frames fls 0)).Sorted
      (ascRel (xcorrs_of cc frames fls 0)) ∧
    (fls ≠ [] → ∀ j, j < fls.length →
      (xcorrs_of cc frames fls 0).getD j 0 ≤
        (xcorrs_of cc frames fls 0).getD
          ((corr_init cc frames fls).overlay) 0) ∧
    (corr_init cc frames fls).g_frame_index = none ∧
    (corr_init cc frames fls).g_indices = none ∧
    (∀ v, corr_update_images v (corr_init cc frames fls) = none) ∧
    (∀ val st, corr_update_data cc frames fls val st =
        some { overlay := (ranking (xcorrs_of cc frames fls val)).getD 0 0
               g_frame_index := some val
               g_indices := some (ranking (xcorrs_of cc frames fls val)) }) ∧
    (∀ val, (ranking (xcorrs_of cc frames fls val)).Sorted
      (fun a b => ascRel (xcorrs_of cc frames fls val) b a)) ∧
    (∀ v val st st', corr_update_data cc frames fls val st = some st' →
      corr_update_images v st' =
        some { st' with
            overlay := (ranking (xcorrs_of cc frames fls val)).getD v 0 }) := by
  refine ⟨rfl, argsort_sorted _, ?_, rfl, rfl, ?_, ?_, ?_, ?_⟩
  · intro hne j hj
    have hlen : (xcorrs_of cc frames fls 0).length = fls.length := by
      simp [xcorrs_of]
    exact argsort_last_max (xcorrs_of cc frames fls 0) j (by omega)
  · intro v
    rfl
  · intro val st
    rfl
  · intro val
    exact ranking_sorted _
  · intro v val st st' h
    have hst : st' = { overlay := (ranking (xcorrs_of cc frames fls val)).getD 0 0
                       g_frame_index := some val
                       g_indices := some (ranking (xcorrs_of cc frames fls val)) } := by
      have heq : corr_update_data cc frames fls val st =
          some { overlay := (ranking (xcorrs_of cc frames fls val)).getD 0 0
                 g_frame_index := some val
                 g_indices := some (ranking (xcorrs_of cc frames fls val)) } := rfl
      rw [heq, Option.some_inj] at h
      exact h.symm
    subst hst
    rfl

/-- C10 counterexample: with a one-element basis library and constant scores,
a rank-slider event issued before any camera-frame change selects nothing:
`update_images` reads the unbound module globals and raises NameError
(`none`), so in particular it does not display the `(v+1)`-th worst match. -/
theorem pre_change_rank_slider_name_error :
    corr_update_images 0 (corr_init (fun _ _ => (0 : ℚ)) [] [[[0]]]) = none ∧
    (corr_init (fun _ _ => (0 : ℚ)) [] [[[0]]]).g_frame_index = none ∧
    (corr_init (fun _ _ => (0 : ℚ)) [] [[[0]]]).g_indices = none :=
  ⟨rfl, rfl, rfl⟩

/-- Witness for the amended C10 at a one-element basis library. -/
theorem corr_rank_slider_semantics_witness :
    ([[[(0 : ℚ)]]] : List (List (List ℚ))) ≠ [] ∧
      (xcorrs_of (fun _ _ => 0) [] [[[0]]] 0).getD 0 0 ≤
        (xcorrs_of (fun _ _ => 0) [] [[[0]]] 0).getD
          ((corr_init (fun _ _ => 0) [] [[[0]]]).overlay) 0 :=
  ⟨by decide, (corr_rank_slider_semantics (fun _ _ => 0) [] [[[0]]]).2.2.1
    (by decide) 0 (by decide)⟩

/-- `previous_segments_frame_count` (view.py line 310): exclusive prefix sums
of the per-segment frame counts (`sizes t = len(emissivities[t])`). -/
def previous_segments_frame_count (sizes : List ℕ) : List ℕ :=
  (List.range sizes.length).map (fun t => (sizes.take t).sum)

/-- Python list indexing `l[i]`: negative indices count from the end of the
list; an index outside `[-len, len)` raises IndexError (`none`). -/
def pyGet (l : List ℕ) (i : ℤ) : Option ℕ :=
  if 0 ≤ i then l[i.toNat]?
  else if (-i).toNat ≤ l.length then l[l.length - (-i).toNat]?
  else none

/-- Segment resolution performed by `update` in `slide_reconstruction`
(view.py lines 385-394): the segment id `efit_rel_index` is the nearest
equilibrium-time index of the frame's timestamp relative to the session start
index — not a function of the frame index alone — and the offset
`frame_rel_index` is the frame index minus that segment's entry of
`previous_segments_frame_count`.  Reading `times[frame_index]` or indexing
the prefix table can raise IndexError (`none`); no other range check
exists. -/
def resolve_frame (efit_times times : List ℚ) (start : ℕ) (sizes : List ℕ)
    (frame_index : ℕ) : Option (ℤ × ℤ) :=
  if frame_index < times.length then
    let efit_t_index := find_nearest efit_times (times.getD frame_index 0)
    let efit_rel_index : ℤ := (efit_t_index : ℤ) - (start : ℤ)
    match pyGet (previous_segments_frame_count sizes) efit_rel_index with
    | none => none
    | some c => some (efit_rel_index, (frame_index : ℤ) - (c : ℤ))
  else none

/-- The resolution the claim describes: walk the segment sizes consuming the
frame index (the segment is the greatest one whose cumulative prefix sum is
at most the index), failing exactly when the index reaches the total frame
count. -/
def segOf (sizes : List ℕ) (fi : ℕ) : Option (ℕ × ℕ) :=
  match sizes with
  | [] => none
  | sz :: rest =>
    if fi < sz then some (0, fi)
    else (segOf rest (fi - sz)).map (fun p => (p.1 + 1, p.2))

theorem segOf_spec (sizes : List ℕ) :
    ∀ fi seg off, segOf sizes fi = some (seg, off) →
      seg < sizes.length ∧ (sizes.take seg).sum ≤ fi ∧
        off = fi - (sizes.take seg).sum ∧ off < sizes.getD seg 0 := by
  induction sizes with
  | nil => intro fi seg off h; simp [segOf] at h
  | cons sz rest ih =>
    intro fi seg off h
    rw [segOf] at h
    split at h
    · rename_i hlt
      rw [Option.some_inj] at h
      obtain ⟨h1, h2⟩ := Prod.mk.inj h
      subst h1
      subst h2
      exact ⟨by simp, by simp, by simp, by simpa using hlt⟩
    · rename_i hge
      rcases Option.map_eq_some'.1 h with ⟨⟨seg', off'⟩, hseg', heq⟩
      obtain ⟨h1, h2⟩ := Prod.mk.inj heq
      subst h1
      subst h2
      obtain ⟨ih1, ih2, ih3, ih4⟩ := ih (fi - sz) seg' off' hseg'
      have hsz : sz ≤ fi := Nat.le_of_not_lt hge
      refine ⟨by simpa using ih1, ?_, ?_, by simpa using ih4⟩
      · simp only [List.take_succ_cons, List.sum_cons]
        omega
      · simp only [List.take_succ_cons, List.sum_cons]
        omega

/-- C4 (amended): the viewer resolves the segment id through the nearest
equilibrium-time lookup (relative to the session start index) and uses the
cumulative prefix sums only for the offset; whenever the time data is aligned
— the lookup returns the session start plus the prefix-sum segment of the
frame index — the resolution coincides with the claimed prefix-sum
resolution `(segment_id, offset_within_segment)`.  No IndexOutOfRangeError
tied to the total frame count exists: failures are raw IndexErrors from
`times[frame_index]` or from indexing the prefix table. -/
theorem segment_resolution_via_time_lookup (efit_times times : List ℚ)
    (start : ℕ) (sizes : List ℕ) (fi seg off : ℕ)
    (hfi : fi < times.length)
    (hseg : segOf sizes fi = some (seg, off))
    (halign : find_nearest efit_times (times.getD fi 0) = start + seg) :
    resolve_frame efit_times times start sizes fi =
      some ((seg : ℤ), (off : ℤ)) := by
  obtain ⟨hlt, hle, hoff, -⟩ := segOf_spec sizes fi seg off hseg
  have hget : pyGet (previous_segments_frame_count sizes) ((seg : ℕ) : ℤ) =
      some ((sizes.take seg).sum) := by
    rw [pyGet, if_pos (Int.natCast_nonneg seg), Int.toNat_natCast,
      previous_segments_frame_count, List.getElem?_map,
      List.getElem?_range hlt]
    rfl
  have hrel : ((start + seg : ℕ) : ℤ) - (start : ℤ) = ((seg : ℕ) : ℤ) := by
    push_cast
    ring
  simp only [resolve_frame, if_pos hfi, halign, hrel, hget]
  have : (fi : ℤ) - ((sizes.take seg).sum : ℤ) = (off : ℤ) := by omega
  rw [this]

/-- C4 counterexample: segment sizes `[2, 1]` (total 3 frames); all frame
timestamps equal 0 while the equilibrium times are `[0, 100]`, so the lookup
pins every frame to the first segment.  Frame index 2 then resolves to
`(segment 0, offset 2)` even though prefix-sum resolution gives
`(segment 1, offset 0)` — and no error is raised although offset 2 is outside
segment 0 (its size is 2). -/
theorem segment_resolution_counterexample :
    resolve_frame [0, 100] [0, 0, 0] 0 [2, 1] 2 = some ((0 : ℤ), (2 : ℤ)) ∧
    segOf [2, 1] 2 = some (1, 0) ∧
    resolve_frame [0, 100] [0, 0, 0] 0 [2, 1] 2 ≠ some ((1 : ℤ), (0 : ℤ)) := by
  have h : resolve_frame [0, 100] [0, 0, 0] 0 [2, 1] 2 =
      some ((0 : ℤ), (2 : ℤ)) := by
    norm_num [resolve_frame, find_nearest, firstArgmin, pyGet,
      previous_segments_frame_count, List.range_succ]
  refine ⟨h, by decide, ?_⟩
  rw [h]
  decide

/-- Witness for the amended C4 on aligned time data. -/
theorem segment_resolution_via_time_lookup_witness :
    2 < ([0, 0, 100] : List ℚ).length ∧
    segOf [2, 1] 2 = some (1, 0) ∧
    find_nearest [0, 100] (([0, 0, 100] : List ℚ).getD 2 0) = 0 + 1 ∧
    resolve_frame [0, 100] [0, 0, 100] 0 [2, 1] 2 =
      some ((1 : ℤ), (0 : ℤ)) :=
  ⟨by decide, by decide, by norm_num [find_nearest, firstArgmin],
   segment_resolution_via_time_lookup [0, 100] [0, 0, 100] 0 [2, 1] 2 1 0
     (by decide) (by decide) (by norm_num [find_nearest, firstArgmin])⟩

/-- `np.linspace(a, b, n)` (view.py lines 324-325): `n` evenly spaced samples
from `a` to `b` inclusive. -/
def linspace (a b : ℚ) (n : ℕ) : List ℚ :=
  (List.range n).map (fun (i : ℕ) => a + (b - a) * (i : ℚ) / ((n : ℚ) - 1))

/-- `np.min` of a 1-D array (numpy rejects empty arrays; 0 is a formal
default never hit in a session with a loaded basis library). -/
def arrMin : List ℚ → ℚ
  | [] => 0
  | x :: xs => xs.foldl min x

/-- `np.max` of a 1-D array. -/
def arrMax : List ℚ → ℚ
  | [] => 0
  | x :: xs => xs.foldl max x

/-- The shared axis construction of view.py lines 324-325:
`np.linspace(np.min(coords), np.max(coords), 100)` for both `r_space` and
`z_space`, with the coordinates concatenated across all segments. -/
def grid_space (coords : List ℚ) : List ℚ :=
  linspace (arrMin coords) (arrMax coords) 100

/-- `np.meshgrid(r_space, z_space)` (view.py line 326): the first grid
repeats the x-axis as rows, the second repeats each y value along a row; both
have shape `(len ys, len xs)`. -/
def meshgrid (xs ys : List ℚ) : List (List ℚ) × List (List ℚ) :=
  (ys.map (fun _ => xs), ys.map (fun y => xs.map (fun _ => y)))

theorem foldl_min_le_init (xs : List ℚ) : ∀ a, xs.foldl min a ≤ a := by
  induction xs with
  | nil => intro a; simp
  | cons y ys ih =>
    intro a
    simp only [List.foldl_cons]
    exact (ih (min a y)).trans (min_le_left a y)

theorem foldl_min_le_mem (xs : List ℚ) : ∀ a, ∀ x ∈ xs, xs.foldl min a ≤ x := by
  induction xs with
  | nil => simp
  | cons y ys ih =>
    intro a x hx
    simp only [List.foldl_cons]
    rcases List.mem_cons.1 hx with rfl | hx
    · exact (foldl_min_le_init ys (min a x)).trans (min_le_right a x)
    · exact ih (min a y) x hx

theorem foldl_max_ge_init (xs : List ℚ) : ∀ a, a ≤ xs.foldl max a := by
  induction xs with
  | nil => intro a; simp
  | cons y ys ih =>
    intro a
    simp only [List.foldl_cons]
    exact (le_max_left a y).trans (ih (max a y))

theorem foldl_max_ge_mem (xs : List ℚ) : ∀ a, ∀ x ∈ xs, x ≤ xs.foldl max a := by
  induction xs with
  | nil => simp
  | cons y ys ih =>
    intro a x hx
    simp only [List.foldl_cons]
    rcases List.mem_cons.1 hx with rfl | hx
    · exact (le_max_right a x).trans (foldl_max_ge_init ys (max a x))
    · exact ih (max a y) x hx

theorem foldl_min_mem (xs : List ℚ) : ∀ a, xs.foldl min a = a ∨
    xs.foldl min a ∈ xs := by
  induction xs with
  | nil => intro a; exact Or.inl rfl
  | cons y ys ih =>
    intro a
    simp only [List.foldl_cons]
    rcases ih (min a y) with h | h
    · rcases min_cases a y with ⟨hm, -⟩ | ⟨hm, -⟩
      · exact Or.inl (by rw [h, hm])
      · exact Or.inr (by rw [h, hm]; exact List.mem_cons_self y ys)
    · exact Or.inr (List.mem_cons_of_mem y h)

theorem foldl_max_mem (xs : List ℚ) : ∀ a, xs.foldl max a = a ∨
    xs.foldl max a ∈ xs := by
  induction xs with
  | nil => intro a; exact Or.inl rfl
  | cons y ys ih =>
    intro a
    simp only [List.foldl_cons]
    rcases ih (max a y) with h | h
    · rcases max_cases a y with ⟨hm, -⟩ | ⟨hm, -⟩
      · exact Or.inl (by rw [h, hm])
      · exact Or.inr (by rw [h, hm]; exact List.mem_cons_self y ys)
    · exact Or.inr (List.mem_cons_of_mem y h)

theorem arrMin_le (l : List ℚ) : ∀ x ∈ l, arrMin l ≤ x := by
  cases l with
  | nil => simp
  | cons y ys =>
    intro x hx
    rcases List.mem_cons.1 hx with rfl | hx
    · exact foldl_min_le_init ys x
    · exact foldl_min_le_mem ys y x hx

theorem le_arrMax (l : List ℚ) : ∀ x ∈ l, x ≤ arrMax l := by
  cases l with
  | nil => simp
  | cons y ys =>
    intro x hx
    rcases List.mem_cons.1 hx with rfl | hx
    · exact foldl_max_ge_init ys x
    · exact foldl_max_ge_mem ys y x hx

theorem arrMin_mem (l : List ℚ) (h : l ≠ []) : arrMin l ∈ l := by
  cases l with
  | nil => exact absurd rfl h
  | cons y ys =>
    rcases foldl_min_mem ys y with hm | hm
    · rw [arrMin, hm]; exact List.mem_cons_self y ys
    · exact List.mem_cons_of_mem y hm

theorem arrMax_mem (l : List ℚ) (h : l ≠ []) : arrMax l ∈ l := by
  cases l with
  | nil => exact absurd rfl h
  | cons y ys =>
    rcases foldl_max_mem ys y with hm | hm
    · rw [arrMax, hm]; exact List.mem_cons_self y ys
    · exact List.mem_cons_of_mem y hm

theorem linspace_getD (a b : ℚ) (n i : ℕ) (h : i < n) :
    (linspace a b n).getD i 0 = a + (b - a) * (i : ℚ) / ((n : ℚ) - 1) := by
  rw [linspace, List.getD_eq_getElem?_getD, List.getElem?_map,
    List.getElem?_range h]
  rfl

theorem grid_space_first (coords : List ℚ) :
    (grid_space coords).getD 0 0 = arrMin coords := by
  rw [grid_space, linspace_getD _ _ _ _ (by norm_num)]
  norm_num

theorem grid_space_last (coords : List ℚ) :
    (grid_space coords).getD 99 0 = arrMax coords := by
  rw [grid_space, linspace_getD _ _ _ _ (by norm_num)]
  push_cast
  ring_nf

/-- Session state of the cached-reconstruction viewer `slide_reconstruction`:
the interpolation grids are built once before the event loop (view.py lines
322-326); `update` (lines 385-408) rewrites the display arrays and the frame
index but only reads the grids. -/
structure ReconSession where
  r_grid : List (List ℚ)
  z_grid : List (List ℚ)
  frame_index : ℕ
  plasma : List (List ℚ)
  reconstruction : List (List ℚ)
  emissivity : List (List ℚ)
  error_disp : List (List ℚ)

/-- `update` of `slide_reconstruction` (view.py lines 385-408): resolve the
equilibrium segment for the new frame, fetch the precomputed weight row,
recompute the emissivity grid (through the external `griddata`, passed as
`interp`, which reads the session grids) and the reconstruction, and redraw.
Out-of-range list accesses are elided with defaults here (the claims
concerning them are settled on `resolve_frame`); the point embedded is which
state `update` writes: every display array and `frame_index`, but never
`r_grid`/`z_grid`. -/
def slide_reconstruction_update
    (interp : List (List ℚ) → List (List ℚ) → List ℚ → List (List ℚ))
    (geomatrices emissivities frames : List (List (List ℚ)))
    (efit_times times : List ℚ) (start : ℕ)
    (val : ℕ) (st : ReconSession) : ReconSession :=
  let fi := val
  let efit_t_index := find_nearest efit_times (times.getD fi 0)
  let rel : ℤ := (efit_t_index : ℤ) - (start : ℤ)
  let sizes := emissivities.map List.length
  let c := (pyGet (previous_segments_frame_count sizes) rel).getD 0
  let wrow := (emissivities.getD rel.toNat []).getD (fi - c) []
  let recon :=
    (reshape64 (mulVec (geomatrices.getD rel.toNat []) wrow)).getD []
  { st with
      frame_index := fi
      plasma := frames.getD fi []
      reconstruction := recon
      emissivity := interp st.r_grid st.z_grid wrow
      error_disp := matSub (frames.getD fi []) recon }

/-- C8: the spatial output grids are regular 100×100 grids whose axes run
from the minimum to the maximum of the basis-element R and Z coordinate
arrays (`arrMin`/`arrMax` are genuine attained bounds), built once per
session; every frame update returns a state with the very same `r_grid` and
`z_grid`. -/
theorem spatial_grid_fixed_bounds (fl_r_all fl_z_all : List ℚ) :
    (grid_space fl_r_all).length = 100 ∧
    (grid_space fl_r_all).getD 0 0 = arrMin fl_r_all ∧
    (grid_space fl_r_all).getD 99 0 = arrMax fl_r_all ∧
    (∀ x ∈ fl_r_all, arrMin fl_r_all ≤ x ∧ x ≤ arrMax fl_r_all) ∧
    (fl_r_all ≠ [] → arrMin fl_r_all ∈ fl_r_all ∧ arrMax fl_r_all ∈ fl_r_all) ∧
    (meshgrid (grid_space fl_r_all) (grid_space fl_z_all)).1.length = 100 ∧
    (∀ row ∈ (meshgrid (grid_space fl_r_all) (grid_space fl_z_all)).1,
      row.length = 100) ∧
    (meshgrid (grid_space fl_r_all) (grid_space fl_z_all)).2.length = 100 ∧
    (∀ row ∈ (meshgrid (grid_space fl_r_all) (grid_space fl_z_all)).2,
      row.length = 100) ∧
    (∀ interp geomatrices emissivities frames efit_times times start val
        (st : ReconSession),
      (slide_reconstruction_update interp geomatrices emissivities frames
          efit_times times start val st).r_grid = st.r_grid ∧
      (slide_reconstruction_update interp geomatrices emissivities frames
          efit_times times start val st).z_grid = st.z_grid) := by
  refine ⟨by simp [grid_space, linspace], grid_space_first fl_r_all,
    grid_space_last fl_r_all, ?_, ?_, ?_, ?_, ?_, ?_, ?_⟩
  · intro x hx
    exact ⟨arrMin_le fl_r_all x hx, le_arrMax fl_r_all x hx⟩
  · intro hne
    exact ⟨arrMin_mem fl_r_all hne, arrMax_mem fl_r_all hne⟩
  · simp [meshgrid, grid_space, linspace]
  · intro row hrow
    simp only [meshgrid, List.mem_map] at hrow
    obtain ⟨y, -, rfl⟩ := hrow
    simp [grid_space, linspace]
  · simp [meshgrid, grid_space, linspace]
  · intro row hrow
    simp only [meshgrid, List.mem_map] at hrow
    obtain ⟨y, -, rfl⟩ := hrow
    simp [grid_space, linspace]
  · intro interp geomatrices emissivities frames efit_times times start val st
    exact ⟨rfl, rfl⟩

/-- Witness for C8 on one-point coordinate arrays. -/
theorem spatial_grid_fixed_bounds_witness :
    ([(1 : ℚ)] ≠ ([] : List ℚ)) ∧
      arrMin [(1 : ℚ)] ∈ [(1 : ℚ)] ∧ arrMax [(1 : ℚ)] ∈ [(1 : ℚ)] :=
  ⟨by decide, (spatial_grid_fixed_bounds [(1 : ℚ)] [(2 : ℚ)]).2.2.2.2.1
    (by decide)⟩
